import Mathlib

/-!
shape_detection: the classifier of `main.cpp`

An embedding of `src/main.cpp` (the helper `angle`, the helper `setLabel` and
the body of the contour loop of `main`) together with the properties of the
specification that concern them.

Modelling conventions

* `cv::Point`, `cv::Size` and `cv::Rect` hold C++ `int`s; they are records of
  `Int`.  Coordinates are pixel coordinates, far from the range where `int`
  arithmetic overflows, so `+`, `-` are the mathematical ones; `/` on `int`
  is `Int.tdiv` (C++ truncates toward zero).
* A `double` is modelled by the exact number it approximates; rounding is not
  modelled.  Areas, ratios and thresholds are rationals.  The only irrational
  operation of the program is the `sqrt` in `angle`; the value
  `num / sqrt rad` that `angle` returns is kept as the pair `(num, rad)`
  (`Cosine`), and the comparisons the program performs on such values are
  decided exactly on the pair.  `Cosine.ge_iff_real`, `Cosine.le_iff_real`
  and `Cosine.key_le_iff_real` show that these decisions are the comparisons
  of the real numbers `num / sqrt rad`.
* The results of the vision library (`contourArea`, `isContourConvex`,
  `approxPolyDP`, `boundingRect`, `getTextSize`) are inputs of the embedded
  functions.  Where a property speaks of the area or the convexity of a given
  polygon (the squares of C5), `contourArea` and `isContourConvex` are
  modelled from the wording of the specification.
-/

namespace ShapeDetection

/-! ## Data model -/

/-- The type `cv::Point`: integer pixel coordinates. -/
structure Point where
  x : Int
  y : Int
deriving DecidableEq

/-- The type `cv::Size` (result of `getTextSize`). -/
structure Size where
  width : Int
  height : Int
deriving DecidableEq

/-- The type `cv::Rect` (result of `boundingRect`). -/
structure Rect where
  x : Int
  y : Int
  width : Int
  height : Int
deriving DecidableEq

/-- The strings `main` passes to `setLabel`. -/
inductive Label where
  | TRI
  | RECT
  | PENTA
  | HEXA
  | CIR
deriving DecidableEq

/-- The `double` value `num / sqrt rad` returned by `angle`, kept exact as the
pair of its numerator and of the radicand of its denominator. -/
structure Cosine where
  num : ℚ
  rad : ℚ
deriving DecidableEq

/-! ## `angle` (main.cpp, lines 19-26) -/

/-- The function `angle`: the value
`(dx1*dx2 + dy1*dy2)/sqrt((dx1*dx1 + dy1*dy1)*(dx2*dx2 + dy2*dy2) + 1e-10)`. -/
def angle (pt1 pt2 pt0 : Point) : Cosine :=
  let dx1 : ℚ := ((pt1.x - pt0.x : Int) : ℚ)
  let dy1 : ℚ := ((pt1.y - pt0.y : Int) : ℚ)
  let dx2 : ℚ := ((pt2.x - pt0.x : Int) : ℚ)
  let dy2 : ℚ := ((pt2.y - pt0.y : Int) : ℚ)
  ⟨dx1*dx2 + dy1*dy2, (dx1*dx1 + dy1*dy1)*(dx2*dx2 + dy2*dy2) + 1e-10⟩

/-! ## Comparisons of `double`s of the form `num / sqrt rad`

`x ↦ x * |x|` is strictly increasing, and it maps `num / sqrt rad` to the
rational `num * |num| / rad`: comparing these images decides the comparison
of the values themselves. -/

/-- The image of a rational `t` under `x ↦ x * |x|`. -/
def signedSq (t : ℚ) : ℚ := t * |t|

/-- The image of `num / sqrt rad` under `x ↦ x * |x|`. -/
def Cosine.key (c : Cosine) : ℚ := c.num * |c.num| / c.rad

/-- The comparison `c >= t` of a cosine with a `double` literal. -/
def Cosine.ge (c : Cosine) (t : ℚ) : Bool := decide (signedSq t ≤ c.key)

/-- The comparison `c <= t` of a cosine with a `double` literal. -/
def Cosine.le (c : Cosine) (t : ℚ) : Bool := decide (c.key ≤ signedSq t)

/-- The call `sort(cos.begin(), cos.end())`: the cosines in ascending
order. -/
def sortCos (l : List Cosine) : List Cosine :=
  l.insertionSort (fun a b => a.key ≤ b.key)

/-! ## The contour loop of `main` (main.cpp, lines 67-119) -/

/-- The macro `CV_PI` of the vision library. -/
def CV_PI : ℚ := 3.1415926535897932384626433832795

/-- The vector `cos` built by the loop `for (int j = 2; j < vtc+1; j++)`:
the values `angle(approx[j%vtc], approx[j-2], approx[j-1])` in the order they
are pushed. -/
def cosines (approx : List Point) : List Cosine :=
  let vtc := approx.length
  ((List.range (vtc + 1)).drop 2).map fun j =>
    angle (approx.getD (j % vtc) ⟨0, 0⟩) (approx.getD (j - 2) ⟨0, 0⟩)
      (approx.getD (j - 1) ⟨0, 0⟩)

/-- The condition of the `if` of the circle branch (lines 113-116), with
`area = contourArea(contour)` and `r = boundingRect(contour)`.  A division by
zero gives an infinity or a NaN in C++ and the value 0 here; in both cases
the condition is false (`circleTest_height_zero`, `circleTest_radius_zero`). -/
def circleTest (area : ℚ) (r : Rect) : Bool :=
  let radius : Int := r.width.tdiv 2
  decide (|1 - (r.width : ℚ) / (r.height : ℚ)| ≤ 0.2 ∧
    |1 - area / (CV_PI * (radius : ℚ) ^ 2)| ≤ 0.2)

/-- The body of the loop over the contours in `main`, as the label handed to
`setLabel` (`none` when `setLabel` is not called).  `area` is
`contourArea(contour)`, `convex` is `isContourConvex(approx)`, `approx` the
result of `approxPolyDP` and `r` is `boundingRect(contour)`. -/
def classify (area : ℚ) (convex : Bool) (approx : List Point) (r : Rect) :
    Option Label :=
  if |area| < 50 ∨ convex = false then none
  else if approx.length = 3 then some Label.TRI
  else if 4 ≤ approx.length ∧ approx.length ≤ 6 then
    let vtc := approx.length
    let cos := sortCos (cosines approx)
    match cos.head?, cos.getLast? with
    | some mincos, some maxcos =>
      if vtc = 4 ∧ mincos.ge (-0.1) = true ∧ maxcos.le 0.3 = true then
        some Label.RECT
      else if vtc = 5 ∧ mincos.ge (-0.34) = true ∧ maxcos.le (-0.27) = true then
        some Label.PENTA
      else if vtc = 6 ∧ mincos.ge (-0.55) = true ∧ maxcos.le (-0.45) = true then
        some Label.HEXA
      else none
    | _, _ => none
  else
    if circleTest area r = true then some Label.CIR else none

/-! ## `setLabel` (main.cpp, lines 31-44) -/

/-- The anchor `pt` computed by `setLabel` from `text = getTextSize(..)` and
`r = boundingRect(contour)` (line 41). -/
def setLabel_pt (text : Size) (r : Rect) : Point :=
  ⟨r.x + (r.width - text.width).tdiv 2, r.y + (r.height + text.height).tdiv 2⟩

/-- The two corners `pt + Point(0, baseline)` and
`pt + Point(text.width, -text.height)` handed to `rectangle` (line 42). -/
def setLabel_rectangle (text : Size) (baseline : Int) (r : Rect) : Point × Point :=
  let pt := setLabel_pt text r
  (⟨pt.x + 0, pt.y + baseline⟩, ⟨pt.x + text.width, pt.y + -text.height⟩)

/-! ## Specification-side definitions, library models and sample polygons -/

/-- An octagon, a polygon `approxPolyDP` can return for a round contour. -/
def octagon : List Point :=
  [⟨3, 0⟩, ⟨7, 0⟩, ⟨10, 3⟩, ⟨10, 7⟩, ⟨7, 10⟩, ⟨3, 10⟩, ⟨0, 7⟩, ⟨0, 3⟩]

/-- The cosines at ALL vertices `i = 0..n-1` of a polygon, each with the
neighbours `(i-1) mod n` and `(i+1) mod n`, as the specification describes
the vector `cos`. -/
def cosinesAllVertices (approx : List Point) : List Cosine :=
  let n := approx.length
  (List.range n).map fun i =>
    angle (approx.getD ((i + 1) % n) ⟨0, 0⟩) (approx.getD ((i + n - 1) % n) ⟨0, 0⟩)
      (approx.getD i ⟨0, 0⟩)

/-- The circularity test as the specification words it: the radius is exactly
half the width of the bounding box. -/
def isRoughlyCircular_spec (area : ℚ) (w h : Int) : Prop :=
  |1 - (w : ℚ) / (h : ℚ)| ≤ 0.2 ∧ |1 - area / (CV_PI * ((w : ℚ) / 2) ^ 2)| ≤ 0.2

/-- A right trapezoid of area 450: right angles at the vertices 1 and 2, an
angle of about 76 degrees at vertex 3 and of about 104 degrees at vertex 0. -/
def trapezoid : List Point := [⟨5, 0⟩, ⟨25, 0⟩, ⟨25, 20⟩, ⟨0, 20⟩]

/-- Modelled from the spec: the "unsigned area" of a contour, what the
`contourArea` of the vision library (not part of the repository) returns:
the area enclosed by the closed polygon through the points, by the shoelace
formula. -/
def contourArea (contour : List Point) : ℚ :=
  let n := contour.length
  let a00 : Int := ((List.range n).map fun i =>
    let prev := contour.getD ((i + n - 1) % n) ⟨0, 0⟩
    let p := contour.getD i ⟨0, 0⟩
    prev.x * p.y - prev.y * p.x).sum
  |(a00 : ℚ) * 0.5|

/-- Modelled from the spec: the convexity test, what the `isContourConvex`
of the vision library (not part of the repository) returns: "all interior
angles ≤ 180°", that is, walking the closed polygon, every turn from one edge
to the next goes to the same side. -/
def isContourConvex (approx : List Point) : Bool :=
  let n := approx.length
  let turns : List Int := (List.range n).map fun i =>
    let a := approx.getD ((i + n - 1) % n) ⟨0, 0⟩
    let b := approx.getD i ⟨0, 0⟩
    let c := approx.getD ((i + 1) % n) ⟨0, 0⟩
    (b.x - a.x) * (c.y - b.y) - (b.y - a.y) * (c.x - b.x)
  (turns.all fun t => decide (0 ≤ t)) || (turns.all fun t => decide (t ≤ 0))

/-- The polygon `p, p+v, p+v+w, p+w`. -/
def square (p v w : Point) : List Point :=
  [p, ⟨p.x + v.x, p.y + v.y⟩, ⟨p.x + v.x + w.x, p.y + v.y + w.y⟩, ⟨p.x + w.x, p.y + w.y⟩]

/-- The vector `w` is `v` rotated by 90 degrees, to either side. -/
def isQuarterTurn (v w : Point) : Prop :=
  (w.x = -v.y ∧ w.y = v.x) ∨ (w.x = v.y ∧ w.y = -v.x)

/-! ## Soundness of the exact comparisons -/

/-- The map `x ↦ x * |x|` is strictly increasing on the reals, so it reflects
and preserves `≤`. -/
theorem le_iff_mul_abs_le (x y : ℝ) : x ≤ y ↔ x * |x| ≤ y * |y| := by
  rcases le_total 0 x with hx | hx <;> rcases le_total 0 y with hy | hy
  · rw [abs_of_nonneg hx, abs_of_nonneg hy]
    constructor
    · intro h; nlinarith
    · intro h; nlinarith
  · rw [abs_of_nonneg hx, abs_of_nonpos hy]
    constructor
    · intro h
      have hx0 : x = 0 := le_antisymm (h.trans hy) hx
      have hy0 : y = 0 := le_antisymm hy (hx0 ▸ h)
      simp [hx0, hy0]
    · intro h
      have hxx : x * x = 0 := by nlinarith [mul_self_nonneg x, mul_self_nonneg y]
      have hyy : y * y = 0 := by nlinarith [mul_self_nonneg x, mul_self_nonneg y]
      rw [mul_self_eq_zero.mp hxx, mul_self_eq_zero.mp hyy]
  · rw [abs_of_nonpos hx, abs_of_nonneg hy]
    constructor
    · intro _; nlinarith [mul_self_nonneg x, mul_self_nonneg y]
    · intro _; exact hx.trans hy
  · rw [abs_of_nonpos hx, abs_of_nonpos hy]
    constructor
    · intro h; nlinarith
    · intro h
      by_contra hlt
      push_neg at hlt
      nlinarith

/-- The rational `Cosine.key c` is the image of the real `num / sqrt rad`
under `x ↦ x * |x|`. -/
theorem Cosine.key_cast (c : Cosine) (h : 0 < c.rad) :
    ((c.key : ℚ) : ℝ) =
      ((c.num : ℝ) / Real.sqrt (c.rad : ℝ)) * |(c.num : ℝ) / Real.sqrt (c.rad : ℝ)| := by
  have hr : (0 : ℝ) < (c.rad : ℝ) := by exact_mod_cast h
  have hs : 0 < Real.sqrt (c.rad : ℝ) := Real.sqrt_pos.mpr hr
  have hsq : Real.sqrt (c.rad : ℝ) * Real.sqrt (c.rad : ℝ) = (c.rad : ℝ) :=
    Real.mul_self_sqrt hr.le
  unfold Cosine.key
  rw [abs_div, abs_of_pos hs]
  push_cast
  rw [div_mul_div_comm, hsq]

/-- The image of a rational threshold, cast to the reals. -/
theorem signedSq_cast (t : ℚ) : ((signedSq t : ℚ) : ℝ) = (t : ℝ) * |(t : ℝ)| := by
  unfold signedSq
  push_cast
  rfl

/-- The test `c >= t` decides the comparison of the real value
`num / sqrt rad` with `t`. -/
theorem Cosine.ge_iff_real (c : Cosine) (t : ℚ) (h : 0 < c.rad) :
    c.ge t = true ↔ (t : ℝ) ≤ (c.num : ℝ) / Real.sqrt (c.rad : ℝ) := by
  unfold Cosine.ge
  rw [decide_eq_true_iff, le_iff_mul_abs_le, ← signedSq_cast, ← Cosine.key_cast c h]
  exact_mod_cast Iff.rfl

/-- The test `c <= t` decides the comparison of the real value
`num / sqrt rad` with `t`. -/
theorem Cosine.le_iff_real (c : Cosine) (t : ℚ) (h : 0 < c.rad) :
    c.le t = true ↔ (c.num : ℝ) / Real.sqrt (c.rad : ℝ) ≤ (t : ℝ) := by
  unfold Cosine.le
  rw [decide_eq_true_iff, le_iff_mul_abs_le, ← signedSq_cast, ← Cosine.key_cast c h]
  exact_mod_cast Iff.rfl

/-- The order used by `sortCos` is the order of the real values. -/
theorem Cosine.key_le_iff_real (a b : Cosine) (ha : 0 < a.rad) (hb : 0 < b.rad) :
    a.key ≤ b.key ↔
      (a.num : ℝ) / Real.sqrt (a.rad : ℝ) ≤ (b.num : ℝ) / Real.sqrt (b.rad : ℝ) := by
  rw [le_iff_mul_abs_le, ← Cosine.key_cast a ha, ← Cosine.key_cast b hb]
  exact_mod_cast Iff.rfl

/-! ## Properties of `angle` -/

/-- The radicand of the denominator of `angle` is strictly positive. -/
theorem angle_rad_pos (pt1 pt2 pt0 : Point) : 0 < (angle pt1 pt2 pt0).rad := by
  simp only [angle]
  have h1 := mul_self_nonneg ((pt1.x - pt0.x : Int) : ℚ)
  have h2 := mul_self_nonneg ((pt1.y - pt0.y : Int) : ℚ)
  have h3 := mul_self_nonneg ((pt2.x - pt0.x : Int) : ℚ)
  have h4 := mul_self_nonneg ((pt2.y - pt0.y : Int) : ℚ)
  have h5 := mul_nonneg (add_nonneg h1 h2) (add_nonneg h3 h4)
  have h6 : (0 : ℚ) < 1e-10 := by norm_num
  linarith

/-- Cauchy-Schwarz for the two edge vectors: the square of the numerator of
`angle` is below the radicand of its denominator. -/
theorem angle_num_sq_lt_rad (pt1 pt2 pt0 : Point) :
    (angle pt1 pt2 pt0).num * (angle pt1 pt2 pt0).num < (angle pt1 pt2 pt0).rad := by
  simp only [angle]
  have h6 : (0 : ℚ) < 1e-10 := by norm_num
  nlinarith [mul_self_nonneg
    (((pt1.x - pt0.x : Int) : ℚ) * ((pt2.y - pt0.y : Int) : ℚ)
      - ((pt1.y - pt0.y : Int) : ℚ) * ((pt2.x - pt0.x : Int) : ℚ))]

/-- C4: for all integer points, degenerate ones included, the denominator of
`angle` is strictly positive (no division by zero) and the value
`num / sqrt rad` it returns lies in `[-1, 1]`. -/
theorem c4_angle_defined_in_unit_interval (pt1 pt2 pt0 : Point) :
    0 < Real.sqrt ((angle pt1 pt2 pt0).rad : ℝ) ∧
    -1 ≤ ((angle pt1 pt2 pt0).num : ℝ) / Real.sqrt ((angle pt1 pt2 pt0).rad : ℝ) ∧
    ((angle pt1 pt2 pt0).num : ℝ) / Real.sqrt ((angle pt1 pt2 pt0).rad : ℝ) ≤ 1 := by
  have hpos := angle_rad_pos pt1 pt2 pt0
  have hcs := angle_num_sq_lt_rad pt1 pt2 pt0
  have hposR : (0 : ℝ) < ((angle pt1 pt2 pt0).rad : ℝ) := by exact_mod_cast hpos
  have hs : 0 < Real.sqrt ((angle pt1 pt2 pt0).rad : ℝ) := Real.sqrt_pos.mpr hposR
  have habs : |((angle pt1 pt2 pt0).num : ℝ)| ≤ Real.sqrt ((angle pt1 pt2 pt0).rad : ℝ) := by
    apply Real.abs_le_sqrt
    have : ((angle pt1 pt2 pt0).num : ℝ) * ((angle pt1 pt2 pt0).num : ℝ)
        < ((angle pt1 pt2 pt0).rad : ℝ) := by exact_mod_cast hcs
    nlinarith
  have hb := abs_le.mp habs
  refine ⟨hs, ?_, ?_⟩
  · rw [le_div_iff₀ hs]; linarith [hb.1]
  · rw [div_le_iff₀ hs]; linarith [hb.2]

/-- C7: when the vectors `pt1 - pt0` and `pt2 - pt0` are perpendicular (a
right angle at `pt0`; the two points need not even differ from `pt0`), the
value `num / sqrt rad` of `angle pt1 pt2 pt0` is exactly 0. -/
theorem c7_angle_right_angle_zero (pt1 pt2 pt0 : Point)
    (hperp : (pt1.x - pt0.x) * (pt2.x - pt0.x) + (pt1.y - pt0.y) * (pt2.y - pt0.y) = 0) :
    ((angle pt1 pt2 pt0).num : ℝ) / Real.sqrt ((angle pt1 pt2 pt0).rad : ℝ) = 0 := by
  have hnum : (angle pt1 pt2 pt0).num = 0 := by
    simp only [angle]
    exact_mod_cast hperp
  rw [hnum]
  simp

/-- Witness of C7: the right angle at the origin between `(3, 4)` and
`(-4, 3)`. -/
theorem c7_angle_right_angle_zero_witness :
    ((angle ⟨3, 4⟩ ⟨-4, 3⟩ ⟨0, 0⟩).num : ℝ)
      / Real.sqrt ((angle ⟨3, 4⟩ ⟨-4, 3⟩ ⟨0, 0⟩).rad : ℝ) = 0 :=
  c7_angle_right_angle_zero ⟨3, 4⟩ ⟨-4, 3⟩ ⟨0, 0⟩ (by decide)

/-! ## Properties of `setLabel` -/

/-- Truncating division by 2, in terms of the remainder it leaves. -/
theorem tdiv_two_cases (a : Int) :
    (0 ≤ a ∧ (a = 2 * a.tdiv 2 ∨ a = 2 * a.tdiv 2 + 1)) ∨
    (a < 0 ∧ (a = 2 * a.tdiv 2 ∨ a = 2 * a.tdiv 2 - 1)) := by
  rcases lt_or_le a 0 with hneg | hpos
  · right
    refine ⟨hneg, ?_⟩
    have h1 : (-a).tdiv 2 = -a / 2 := Int.tdiv_eq_ediv (by omega) (by decide)
    have h2 : (-a).tdiv 2 = -(a.tdiv 2) := Int.neg_tdiv a 2
    omega
  · left
    refine ⟨hpos, ?_⟩
    have h1 : a.tdiv 2 = a / 2 := Int.tdiv_eq_ediv hpos (by decide)
    omega

/-- C10: the anchor of `setLabel` centres the text box in the bounding box to
within one pixel on each axis, for every bounding box and every text size. -/
theorem c10_setLabel_centres_within_one_pixel (text : Size) (r : Rect) :
    |(2 * (setLabel_pt text r).x + text.width) - (2 * r.x + r.width)| ≤ 1 ∧
    |(2 * (setLabel_pt text r).y - text.height) - (2 * r.y + r.height)| ≤ 1 := by
  simp only [setLabel_pt]
  have hx := tdiv_two_cases (r.width - text.width)
  have hy := tdiv_two_cases (r.height + text.height)
  constructor <;> rw [abs_le] <;> omega

/-- C9 fails as stated: for a text of size 30 x 9 on a bounding box of size
10 x 10 at the origin, the background rectangle starts at `x = -10`, left of
the bounding box, and ends at `x = 20`, right of it. -/
theorem c9_rectangle_leaves_box_counterexample :
    ¬ ((Rect.mk 0 0 10 10).x ≤ (setLabel_rectangle ⟨30, 9⟩ 3 ⟨0, 0, 10, 10⟩).1.x ∧
       (setLabel_rectangle ⟨30, 9⟩ 3 ⟨0, 0, 10, 10⟩).2.x
          ≤ (Rect.mk 0 0 10 10).x + (Rect.mk 0 0 10 10).width ∧
       (Rect.mk 0 0 10 10).y ≤ (setLabel_rectangle ⟨30, 9⟩ 3 ⟨0, 0, 10, 10⟩).2.y) := by
  decide

/-- C9, amended: when the text is no wider and no taller than the bounding
box, the background rectangle of `setLabel` does not extend outside the
bounding box to the left, to the right or above it. -/
theorem c9_rectangle_within_box_when_text_fits (text : Size) (baseline : Int) (r : Rect)
    (hw : text.width ≤ r.width) (hh : text.height ≤ r.height) :
    r.x ≤ (setLabel_rectangle text baseline r).1.x ∧
    (setLabel_rectangle text baseline r).2.x ≤ r.x + r.width ∧
    r.y ≤ (setLabel_rectangle text baseline r).2.y := by
  simp only [setLabel_rectangle, setLabel_pt]
  have hx := tdiv_two_cases (r.width - text.width)
  have hy := tdiv_two_cases (r.height + text.height)
  refine ⟨?_, ?_, ?_⟩ <;> omega

/-- Witness of the amended C9: a text of size 20 x 9 on a bounding box of
size 40 x 30. -/
theorem c9_rectangle_within_box_when_text_fits_witness :
    (5 : Int) ≤ (setLabel_rectangle ⟨20, 9⟩ 3 ⟨5, 7, 40, 30⟩).1.x ∧
    (setLabel_rectangle ⟨20, 9⟩ 3 ⟨5, 7, 40, 30⟩).2.x ≤ 5 + 40 ∧
    (7 : Int) ≤ (setLabel_rectangle ⟨20, 9⟩ 3 ⟨5, 7, 40, 30⟩).2.y :=
  c9_rectangle_within_box_when_text_fits ⟨20, 9⟩ 3 ⟨5, 7, 40, 30⟩ (by decide) (by decide)

/-! ## Properties of the contour loop of `main` -/

/-- The loop `for (int j = 2; j < vtc+1; j++)` pushes `vtc - 1` cosines, so
the sorted vector of a polygon with 4 to 6 vertices is never empty. -/
theorem cosines_length (approx : List Point) :
    (cosines approx).length = approx.length - 1 := by
  simp [cosines]

/-- C3: a contour whose unsigned area is below 50, or whose approximated
polygon is not convex, gets no label, whatever the polygon and the bounding
box are. -/
theorem c3_filtered_contour_unlabelled (area : ℚ) (convex : Bool) (approx : List Point)
    (r : Rect) (h : |area| < 50 ∨ convex = false) :
    classify area convex approx r = none := by
  unfold classify
  rw [if_pos h]

/-- Witness of C3: a triangle of area 10, and a non-convex dart of area 150. -/
theorem c3_filtered_contour_unlabelled_witness :
    classify 10 true [⟨0, 0⟩, ⟨5, 0⟩, ⟨0, 4⟩] ⟨0, 0, 6, 5⟩ = none ∧
    classify 150 false [⟨0, 0⟩, ⟨10, 5⟩, ⟨20, 0⟩, ⟨10, 20⟩] ⟨0, 0, 21, 21⟩ = none :=
  ⟨c3_filtered_contour_unlabelled 10 true [⟨0, 0⟩, ⟨5, 0⟩, ⟨0, 4⟩] ⟨0, 0, 6, 5⟩
      (Or.inl (by norm_num [abs_of_nonneg])),
    c3_filtered_contour_unlabelled 150 false [⟨0, 0⟩, ⟨10, 5⟩, ⟨20, 0⟩, ⟨10, 20⟩]
      ⟨0, 0, 21, 21⟩ (Or.inr rfl)⟩

/-- C8: a contour that passes the filter and whose approximated polygon has
exactly 3 vertices is labelled TRI, whatever its vertices and its bounding
box are. -/
theorem c8_three_vertices_labelled_TRI (area : ℚ) (approx : List Point) (r : Rect)
    (harea : 50 ≤ |area|) (hlen : approx.length = 3) :
    classify area true approx r = some Label.TRI := by
  unfold classify
  rw [if_neg (by simp [not_lt.mpr harea]), if_pos hlen]

/-- Witness of C8: a flat triangle of area 60. -/
theorem c8_three_vertices_labelled_TRI_witness :
    classify 60 true [⟨0, 0⟩, ⟨40, 0⟩, ⟨20, 3⟩] ⟨0, 0, 41, 4⟩ = some Label.TRI :=
  c8_three_vertices_labelled_TRI 60 [⟨0, 0⟩, ⟨40, 0⟩, ⟨20, 3⟩] ⟨0, 0, 41, 4⟩
    (by norm_num [abs_of_nonneg]) rfl

/-- C6: for a contour that passes the filter, a polygon with a vertex count
other than 3, 4, 5, 6 is labelled CIR when the circularity test holds and is
not labelled otherwise; a polygon with 3 to 6 vertices is never labelled CIR
and its label does not depend on the bounding box the test reads. -/
theorem c6_circle_branch (area : ℚ) (approx : List Point) (r : Rect)
    (harea : 50 ≤ |area|) :
    ((approx.length < 3 ∨ 6 < approx.length) →
      classify area true approx r = if circleTest area r = true then some Label.CIR else none) ∧
    ((3 ≤ approx.length ∧ approx.length ≤ 6) →
      classify area true approx r ≠ some Label.CIR ∧
      ∀ r2 : Rect, classify area true approx r2 = classify area true approx r) := by
  have hf : ¬ (|area| < 50 ∨ true = false) := by simp [not_lt.mpr harea]
  constructor
  · intro hlen
    unfold classify
    rw [if_neg hf, if_neg (by omega), if_neg (by omega)]
  · rintro ⟨h3, h6⟩
    have hbranch : ∀ r2 : Rect, classify area true approx r2 =
        if approx.length = 3 then some Label.TRI
        else
          match (sortCos (cosines approx)).head?, (sortCos (cosines approx)).getLast? with
          | some mincos, some maxcos =>
            if approx.length = 4 ∧ mincos.ge (-0.1) = true ∧ maxcos.le 0.3 = true then
              some Label.RECT
            else if approx.length = 5 ∧ mincos.ge (-0.34) = true
                ∧ maxcos.le (-0.27) = true then
              some Label.PENTA
            else if approx.length = 6 ∧ mincos.ge (-0.55) = true
                ∧ maxcos.le (-0.45) = true then
              some Label.HEXA
            else none
          | _, _ => none := by
      intro r2
      unfold classify
      rw [if_neg hf]
      by_cases h : approx.length = 3
      · rw [if_pos h, if_pos h]
      · rw [if_neg h, if_neg h, if_pos (by omega)]
    refine ⟨?_, fun r2 => by rw [hbranch r2, hbranch r]⟩
    rw [hbranch r]
    split_ifs
    · simp
    · split
      · split_ifs <;> simp
      · simp

/-- Witness of C6: an octagon of area 82 in a bounding box of 11 x 11 is
labelled CIR, and a square of area 100 is not. -/
theorem c6_circle_branch_witness :
    classify 82 true octagon ⟨0, 0, 11, 11⟩ = some Label.CIR ∧
    classify 100 true [⟨0, 0⟩, ⟨10, 0⟩, ⟨10, 10⟩, ⟨0, 10⟩] ⟨0, 0, 11, 11⟩ ≠ some Label.CIR := by
  refine ⟨?_, ((c6_circle_branch 100 [⟨0, 0⟩, ⟨10, 0⟩, ⟨10, 10⟩, ⟨0, 10⟩] ⟨0, 0, 11, 11⟩
    (by norm_num [abs_of_nonneg])).2 (by decide)).1⟩
  rw [(c6_circle_branch 82 octagon ⟨0, 0, 11, 11⟩ (by norm_num [abs_of_nonneg])).1
    (by decide)]
  have h : circleTest 82 ⟨0, 0, 11, 11⟩ = true := by
    simp only [circleTest, CV_PI, decide_eq_true_eq]
    norm_num [abs_le, Int.tdiv]
  rw [if_pos h]

/-- C1 at the trapezoid: the loop `for (int j = 2; j < vtc+1; j++)` collects
the cosines of the vertices 1, 2, 3 only, so `main` labels the trapezoid RECT,
although the smallest cosine over all four vertices (the one at vertex 0) is
below -0.1. -/
theorem c1_vertex_zero_never_examined :
    classify 450 true trapezoid ⟨0, 0, 26, 21⟩ = some Label.RECT ∧
    (cosines trapezoid).length = 3 ∧
    ((sortCos (cosinesAllVertices trapezoid)).head?.map fun c => c.ge (-0.1)) = some false := by
  refine ⟨?_, ?_, ?_⟩
  · simp [classify, trapezoid, cosines, sortCos, angle, Cosine.ge, Cosine.le, Cosine.key,
      signedSq, List.range, List.range.loop]
    norm_num [abs_of_nonneg, abs_of_neg]
  · simp [trapezoid, cosines]
  · simp [trapezoid, cosinesAllVertices, sortCos, angle, Cosine.ge, Cosine.key,
      signedSq, List.range, List.range.loop]
    norm_num [abs_of_nonneg, abs_of_neg]

/-- C2 fails as stated: for a contour of area 100 in a bounding box of
11 x 11 the test of `main` is false (its radius is 5), while with the radius
5.5 both conditions of the specification hold. -/
theorem c2_circleTest_odd_width_counterexample :
    ¬ (circleTest 100 ⟨0, 0, 11, 11⟩ = true ↔ isRoughlyCircular_spec 100 11 11) := by
  have hcode : circleTest 100 ⟨0, 0, 11, 11⟩ = false := by
    simp only [circleTest, CV_PI, decide_eq_false_iff_not]
    norm_num [abs_le, Int.tdiv]
  have hspec : isRoughlyCircular_spec 100 11 11 := by
    simp only [isRoughlyCircular_spec, CV_PI]
    norm_num [abs_le]
  rw [hcode]
  simp [hspec]

/-- C2, amended: the circularity test of `main` is true iff
`|1 - w/h| <= 0.2` and `|1 - area / (pi * k^2)| <= 0.2`, where the radius `k`
is the width halved and truncated to an integer: `w = 2k` or `w = 2k + 1`. -/
theorem c2_circleTest_truncated_radius (area : ℚ) (r : Rect) (k : Int) (hk : 0 ≤ k)
    (hw : r.width = 2 * k ∨ r.width = 2 * k + 1) :
    circleTest area r = true ↔
      |1 - (r.width : ℚ) / (r.height : ℚ)| ≤ 0.2 ∧
      |1 - area / (CV_PI * (k : ℚ) ^ 2)| ≤ 0.2 := by
  have hrad : r.width.tdiv 2 = k := by
    have h := tdiv_two_cases r.width
    omega
  simp only [circleTest, hrad, decide_eq_true_eq]

/-- Witness of the amended C2: width 11, radius 5, area 82. -/
theorem c2_circleTest_truncated_radius_witness :
    circleTest 82 ⟨0, 0, 11, 11⟩ = true ↔
      |1 - (((11 : Int) : ℚ)) / ((11 : Int) : ℚ)| ≤ 0.2 ∧
      |1 - (82 : ℚ) / (CV_PI * ((5 : Int) : ℚ) ^ 2)| ≤ 0.2 :=
  c2_circleTest_truncated_radius 82 ⟨0, 0, 11, 11⟩ 5 (by decide) (Or.inr (by decide))

/-- With a bounding box of height 0 the C++ quotient `width / height` is an
infinity or a NaN and the test is false; so it is here. -/
theorem circleTest_height_zero (area : ℚ) (r : Rect) (h : r.height = 0) :
    circleTest area r = false := by
  simp only [circleTest, h, decide_eq_false_iff_not]
  norm_num [abs_le]

/-- With a radius of 0 the C++ quotient `area / (CV_PI * 0)` is an infinity
or a NaN and the test is false; so it is here. -/
theorem circleTest_radius_zero (area : ℚ) (r : Rect) (h : r.width.tdiv 2 = 0) :
    circleTest area r = false := by
  simp only [circleTest, h, decide_eq_false_iff_not]
  norm_num [abs_le]

/-- Sorting keeps the elements: the first and the last element of a sorted
non-empty vector are elements of the vector. -/
theorem sortCos_head_getLast (l : List Cosine) (hl : l ≠ []) :
    ∃ a b, (sortCos l).head? = some a ∧ (sortCos l).getLast? = some b ∧ a ∈ l ∧ b ∈ l := by
  have hperm : (sortCos l).Perm l := List.perm_insertionSort _ l
  have hne : sortCos l ≠ [] := by
    intro h
    rw [h] at hperm
    exact hl (List.Perm.nil_eq hperm).symm
  refine ⟨(sortCos l).head hne, (sortCos l).getLast hne, List.head?_eq_head hne,
    List.getLast?_eq_getLast _ hne, ?_, ?_⟩
  · exact hperm.mem_iff.mp (List.head_mem hne)
  · exact hperm.mem_iff.mp (List.getLast_mem hne)

/-- A cosine with numerator 0 passes the band of the label RECT. -/
theorem Cosine.zero_in_RECT_band (c : Cosine) (h : c.num = 0) :
    c.ge (-0.1) = true ∧ c.le 0.3 = true := by
  simp only [Cosine.ge, Cosine.le, Cosine.key, signedSq, h, decide_eq_true_eq]
  norm_num [abs_of_nonneg, abs_of_neg]

/-- The unsigned area of the square on `v` is `v.x^2 + v.y^2`. -/
theorem contourArea_square (p v w : Point) (hq : isQuarterTurn v w) :
    contourArea (square p v w) = ((v.x * v.x + v.y * v.y : Int) : ℚ) := by
  obtain ⟨px, py⟩ := p
  obtain ⟨vx, vy⟩ := v
  obtain ⟨wx, wy⟩ := w
  have hnn : (0 : ℚ) ≤ ((vx * vx + vy * vy : Int) : ℚ) := by
    exact_mod_cast add_nonneg (mul_self_nonneg vx) (mul_self_nonneg vy)
  rcases hq with ⟨h1, h2⟩ | ⟨h1, h2⟩ <;> simp only at h1 h2 <;> subst wx <;> subst wy
  · have hsum : contourArea (square ⟨px, py⟩ ⟨vx, vy⟩ ⟨-vy, vx⟩)
        = |(((2 * (vx * vx + vy * vy) : Int) : ℚ)) * 0.5| := by
      simp only [contourArea, square, List.range, List.range.loop, List.length, List.map,
        List.sum_cons, List.sum_nil]
      congr 3
      simp
      ring
    rw [hsum]
    push_cast
    rw [show (2 * ((vx : ℚ) * vx + vy * vy)) * 0.5 = (vx : ℚ) * vx + vy * vy by ring]
    exact abs_of_nonneg (by exact_mod_cast hnn)
  · have hsum : contourArea (square ⟨px, py⟩ ⟨vx, vy⟩ ⟨vy, -vx⟩)
        = |(((-(2 * (vx * vx + vy * vy)) : Int) : ℚ)) * 0.5| := by
      simp only [contourArea, square, List.range, List.range.loop, List.length, List.map,
        List.sum_cons, List.sum_nil]
      congr 3
      simp
      ring
    rw [hsum]
    push_cast
    rw [show (-(2 * ((vx : ℚ) * vx + vy * vy))) * 0.5 = -((vx : ℚ) * vx + vy * vy) by ring,
      abs_neg]
    exact abs_of_nonneg (by exact_mod_cast hnn)

/-- A square is convex. -/
theorem isContourConvex_square (p v w : Point) (hq : isQuarterTurn v w) :
    isContourConvex (square p v w) = true := by
  obtain ⟨px, py⟩ := p
  obtain ⟨vx, vy⟩ := v
  obtain ⟨wx, wy⟩ := w
  have hnn : 0 ≤ vx * vx + vy * vy := add_nonneg (mul_self_nonneg vx) (mul_self_nonneg vy)
  rcases hq with ⟨h1, h2⟩ | ⟨h1, h2⟩ <;> simp only at h1 h2 <;> subst wx <;> subst wy
  · simp only [isContourConvex, square, List.range, List.range.loop, List.length, List.map,
      List.all_cons, List.all_nil, Bool.or_eq_true, Bool.and_eq_true, decide_eq_true_eq]
    left
    simp
    refine ⟨?_, ?_, ?_, ?_⟩ <;> nlinarith
  · simp only [isContourConvex, square, List.range, List.range.loop, List.length, List.map,
      List.all_cons, List.all_nil, Bool.or_eq_true, Bool.and_eq_true, decide_eq_true_eq]
    right
    simp
    refine ⟨?_, ?_, ?_, ?_⟩ <;> nlinarith

/-- Every cosine that `main` computes for a square has numerator 0. -/
theorem cosines_square_num (p v w : Point) (hq : isQuarterTurn v w) :
    ∀ c ∈ cosines (square p v w), c.num = 0 := by
  obtain ⟨px, py⟩ := p
  obtain ⟨vx, vy⟩ := v
  obtain ⟨wx, wy⟩ := w
  rcases hq with ⟨h1, h2⟩ | ⟨h1, h2⟩ <;> simp only at h1 h2 <;> subst wx <;> subst wy
  · intro c hc
    simp [cosines, square, List.range, List.range.loop, angle] at hc
    rcases hc with rfl | rfl | rfl <;> simp <;> ring
  · intro c hc
    simp [cosines, square, List.range, List.range.loop, angle] at hc
    rcases hc with rfl | rfl | rfl <;> simp <;> ring

/-- C5 fails as stated: the square of side 7 has a contour area of 49, below
the threshold of the filter, and gets no label. -/
theorem c5_square_below_area_threshold_counterexample :
    (⟨7, 0⟩ : Point) ≠ ⟨0, 0⟩ ∧ isQuarterTurn ⟨7, 0⟩ ⟨0, 7⟩ ∧
    contourArea (square ⟨0, 0⟩ ⟨7, 0⟩ ⟨0, 7⟩) = 49 ∧
    isContourConvex (square ⟨0, 0⟩ ⟨7, 0⟩ ⟨0, 7⟩) = true ∧
    classify (contourArea (square ⟨0, 0⟩ ⟨7, 0⟩ ⟨0, 7⟩))
      (isContourConvex (square ⟨0, 0⟩ ⟨7, 0⟩ ⟨0, 7⟩))
      (square ⟨0, 0⟩ ⟨7, 0⟩ ⟨0, 7⟩) ⟨0, 0, 8, 8⟩ = none := by
  have hq : isQuarterTurn ⟨7, 0⟩ ⟨0, 7⟩ := Or.inl ⟨by decide, by decide⟩
  have harea : contourArea (square ⟨0, 0⟩ ⟨7, 0⟩ ⟨0, 7⟩) = 49 := by
    rw [contourArea_square _ _ _ hq]
    norm_num
  refine ⟨by decide, hq, harea, isContourConvex_square _ _ _ hq, ?_⟩
  rw [harea]
  unfold classify
  rw [if_pos (Or.inl (by norm_num [abs_of_nonneg]))]

/-- C5, amended: every square whose area `v.x^2 + v.y^2` is at least 50,
taken as both the contour and its approximated polygon, passes the filter and
is labelled RECT. -/
theorem c5_square_labelled_RECT (p v w : Point) (r : Rect) (hq : isQuarterTurn v w)
    (harea : 50 ≤ v.x * v.x + v.y * v.y) :
    classify (contourArea (square p v w)) (isContourConvex (square p v w))
      (square p v w) r = some Label.RECT := by
  have hA : ¬ (|contourArea (square p v w)| < 50 ∨ true = false) := by
    rw [contourArea_square p v w hq]
    have h50 : (50 : ℚ) ≤ ((v.x * v.x + v.y * v.y : Int) : ℚ) := by exact_mod_cast harea
    rw [abs_of_nonneg (by linarith)]
    simpa using h50
  have hlen : (square p v w).length = 4 := rfl
  have hne : cosines (square p v w) ≠ [] := by
    intro h
    have := congrArg List.length h
    simp [cosines, square] at this
  obtain ⟨a, b, ha, hb, hma, hmb⟩ := sortCos_head_getLast _ hne
  have hga := (Cosine.zero_in_RECT_band a (cosines_square_num p v w hq a hma)).1
  have hlb := (Cosine.zero_in_RECT_band b (cosines_square_num p v w hq b hmb)).2
  rw [isContourConvex_square p v w hq]
  unfold classify
  rw [if_neg hA, if_neg (by rw [hlen]; decide), if_pos (by rw [hlen]; decide)]
  simp only [ha, hb]
  rw [if_pos ⟨hlen, hga, hlb⟩]

/-- Witness of the amended C5: the tilted square on `v = (6, 5)` at
`(10, 20)`, of area 61. -/
theorem c5_square_labelled_RECT_witness :
    classify (contourArea (square ⟨10, 20⟩ ⟨6, 5⟩ ⟨-5, 6⟩))
      (isContourConvex (square ⟨10, 20⟩ ⟨6, 5⟩ ⟨-5, 6⟩))
      (square ⟨10, 20⟩ ⟨6, 5⟩ ⟨-5, 6⟩) ⟨5, 20, 12, 12⟩ = some Label.RECT :=
  c5_square_labelled_RECT ⟨10, 20⟩ ⟨6, 5⟩ ⟨-5, 6⟩ ⟨5, 20, 12, 12⟩
    (Or.inl ⟨by decide, by decide⟩) (by decide)

/-- The sorted vector is in ascending order of the values. -/
theorem sortCos_sorted (l : List Cosine) :
    (sortCos l).Sorted (fun a b => a.key ≤ b.key) := by
  haveI : IsTotal Cosine (fun a b => a.key ≤ b.key) := ⟨fun a b => le_total a.key b.key⟩
  haveI : IsTrans Cosine (fun a b => a.key ≤ b.key) := ⟨fun _ _ _ h1 h2 => le_trans h1 h2⟩
  exact List.sorted_insertionSort _ l

/-- The value `mincos = cos.front()` passes a lower bound iff every collected
cosine does. -/
theorem mincos_ge_iff (l : List Cosine) (a : Cosine) (t : ℚ)
    (h : (sortCos l).head? = some a) :
    a.ge t = true ↔ ∀ c ∈ l, c.ge t = true := by
  have hperm : (sortCos l).Perm l := List.perm_insertionSort _ l
  have hsorted := sortCos_sorted l
  cases hs : sortCos l with
  | nil => rw [hs] at h; simp at h
  | cons x xs =>
    rw [hs] at h hsorted hperm
    simp only [List.head?_cons, Option.some.injEq] at h
    subst h
    have hall := List.rel_of_sorted_cons hsorted
    simp only [Cosine.ge, decide_eq_true_eq]
    constructor
    · intro hx c hc
      rcases List.mem_cons.mp (hperm.mem_iff.mpr hc) with rfl | hmem
      · exact hx
      · exact hx.trans (hall c hmem)
    · intro hl
      exact hl x (hperm.mem_iff.mp (List.mem_cons_self x xs))

/-- The value `maxcos = cos.back()` passes an upper bound iff every collected
cosine does. -/
theorem maxcos_le_iff (l : List Cosine) (b : Cosine) (t : ℚ)
    (h : (sortCos l).getLast? = some b) :
    b.le t = true ↔ ∀ c ∈ l, c.le t = true := by
  have hperm : (sortCos l).Perm l := List.perm_insertionSort _ l
  have hsorted := sortCos_sorted l
  have hne : sortCos l ≠ [] := by
    intro hnil
    rw [hnil] at h
    simp at h
  have hb : b = (sortCos l).getLast hne := by
    rw [List.getLast?_eq_getLast _ hne] at h
    exact (Option.some.inj h).symm
  have hmemb : b ∈ sortCos l := hb ▸ List.getLast_mem hne
  have hall : ∀ c ∈ sortCos l, c.key ≤ b.key := by
    intro c hc
    obtain ⟨i, hi, rfl⟩ := List.getElem_of_mem hc
    rw [hb, List.getLast_eq_getElem]
    rcases Nat.lt_or_ge i ((sortCos l).length - 1) with hlt | hge
    · exact List.Sorted.rel_get_of_lt hsorted (show (⟨i, hi⟩ : Fin _) < ⟨_, by omega⟩ from hlt)
    · have : i = (sortCos l).length - 1 := by omega
      subst this
      exact le_refl _
  simp only [Cosine.le, decide_eq_true_eq]
  constructor
  · intro hx c hc
    exact (hall c (hperm.mem_iff.mpr hc)).trans hx
  · intro hl
    exact hl b (hperm.mem_iff.mp hmemb)

/-- The band test `mincos >= lo && maxcos <= hi` on the first and the last
element of the sorted vector holds iff every collected cosine lies in the
band. -/
theorem band_iff_all (l : List Cosine) (a b : Cosine) (lo hi : ℚ)
    (ha : (sortCos l).head? = some a) (hb : (sortCos l).getLast? = some b) :
    (a.ge lo = true ∧ b.le hi = true) ↔
      l.all (fun c => c.ge lo && c.le hi) = true := by
  rw [mincos_ge_iff l a lo ha, maxcos_le_iff l b hi hb]
  simp only [List.all_eq_true, Bool.and_eq_true]
  constructor
  · rintro ⟨h1, h2⟩ c hc
    exact ⟨h1 c hc, h2 c hc⟩
  · intro h
    exact ⟨fun c hc => (h c hc).1, fun c hc => (h c hc).2⟩

/-- What the branch of `main` for 4 to 6 vertices computes: the label is
decided by the vertex count and by the band in which ALL the cosines collected
by the loop (those of the vertices `1 .. vtc-1`) lie. -/
theorem classify_bands (area : ℚ) (approx : List Point) (r : Rect) (harea : 50 ≤ |area|)
    (h46 : 4 ≤ approx.length ∧ approx.length ≤ 6) :
    classify area true approx r =
      if approx.length = 4 ∧
          (cosines approx).all (fun c => c.ge (-0.1) && c.le 0.3) = true then
        some Label.RECT
      else if approx.length = 5 ∧
          (cosines approx).all (fun c => c.ge (-0.34) && c.le (-0.27)) = true then
        some Label.PENTA
      else if approx.length = 6 ∧
          (cosines approx).all (fun c => c.ge (-0.55) && c.le (-0.45)) = true then
        some Label.HEXA
      else none := by
  have hf : ¬ (|area| < 50 ∨ true = false) := by simp [not_lt.mpr harea]
  have hne : cosines approx ≠ [] := by
    intro h
    have hlen := cosines_length approx
    rw [h] at hlen
    simp at hlen
    omega
  obtain ⟨a, b, ha, hb, -, -⟩ := sortCos_head_getLast _ hne
  unfold classify
  rw [if_neg hf, if_neg (by omega), if_pos h46]
  simp only [ha, hb]
  simp only [← band_iff_all (cosines approx) a b _ _ ha hb, and_assoc]

end ShapeDetection
